import Mathlib

/-!
Verification of the understanding-layer core of `src/routes.py`:
transcript normalization, product resolution, intent detection,
retrieval-query construction and fallback selection.

Text is modelled as `List Char`.  Python's `str.lower`, `str.upper` and
`str.title` are modelled on ASCII letters (the configuration and fix
tables of the source are ASCII).  Python dictionaries that the source
iterates over are modelled as association lists in insertion order, as
the specification itself prescribes for any reimplementation.
-/

set_option maxHeartbeats 1000000

namespace RagNew

/-- Characters of a string literal; all embedded text is written through it. -/
def str (s : String) : List Char := s.data

/-- Whitespace test used to model Python whitespace splitting and stripping. -/
def wsB (c : Char) : Bool := c.isWhitespace

/-- ASCII uppercase/lowercase letter pairs, the table behind the models of
Python `str.lower` and `str.upper`. -/
def ucPairs : List (Char × Char) :=
  [('A', 'a'), ('B', 'b'), ('C', 'c'), ('D', 'd'), ('E', 'e'), ('F', 'f'),
   ('G', 'g'), ('H', 'h'), ('I', 'i'), ('J', 'j'), ('K', 'k'), ('L', 'l'),
   ('M', 'm'), ('N', 'n'), ('O', 'o'), ('P', 'p'), ('Q', 'q'), ('R', 'r'),
   ('S', 's'), ('T', 't'), ('U', 'u'), ('V', 'v'), ('W', 'w'), ('X', 'x'),
   ('Y', 'y'), ('Z', 'z')]

/-- Python `str.lower` on one character (ASCII model). -/
def lowerChar (c : Char) : Char :=
  ((ucPairs.find? (fun p => p.1 == c)).map Prod.snd).getD c

/-- Python `str.upper` on one character (ASCII model). -/
def upperChar (c : Char) : Char :=
  ((ucPairs.find? (fun p => p.2 == c)).map Prod.fst).getD c

/-- Python `str.lower` on a string. -/
def lowerL (s : List Char) : List Char := s.map lowerChar

/-- Python `needle in haystack`: substring containment. -/
def isSubstr (p : List Char) : List Char → Bool
  | [] => p.isEmpty
  | c :: rest => p.isPrefixOf (c :: rest) || isSubstr p rest

/-- Fuel-driven worker for `pyReplace`; the fuel only forces structural
recursion (so that the kernel can evaluate it) and any fuel above the input
length is enough, which `pyReplaceF_fuel` proves below. -/
def pyReplaceF (p t : List Char) : Nat → List Char → List Char
  | 0, s => s
  | _ + 1, [] => if p = [] then t else []
  | n + 1, c :: rest =>
    if p = [] then t ++ c :: pyReplaceF p t n rest
    else if p.isPrefixOf (c :: rest) then
      t ++ pyReplaceF p t n ((c :: rest).drop p.length)
    else c :: pyReplaceF p t n rest

/-- Python `s.replace(p, t)`: replace every non-overlapping occurrence of
`p` by `t`, scanning left to right.  An empty pattern inserts `t` before
every character and at the end, as Python does. -/
def pyReplace (p t s : List Char) : List Char := pyReplaceF p t (s.length + 1) s

/-- Python `str.strip()`: drop whitespace from both ends. -/
def pyStrip (s : List Char) : List Char :=
  ((s.dropWhile wsB).reverse.dropWhile wsB).reverse

/-- Worker for `collapse`: the input starts after the leading whitespace
run; the flag records that whitespace was seen and a single space is pending
before the next non-whitespace character, so internal runs compress to one
space and a trailing run is dropped. -/
def collapseCore : Bool → List Char → List Char
  | _, [] => []
  | pending, c :: rest =>
    if wsB c then collapseCore true rest
    else if pending then ' ' :: c :: collapseCore false rest
    else c :: collapseCore false rest

/-- Python `" ".join(text.strip().split())` (line 70): trim, and collapse
every internal whitespace run to a single space. -/
def collapse (s : List Char) : List Char := collapseCore false (s.dropWhile wsB)

/-- The fixed STT-correction table `_STT_FIXES` (lines 27-31), in insertion
order. -/
def sttFixes : List (List Char × List Char) :=
  [(str "a count", str "account"), (str "a/c", str "account"),
   (str "a san", str "asaan")]

/-- `_apply_stt_fixes` (lines 62-66): fold the table over the text with
Python `str.replace`. -/
def apply_stt_fixes (s : List Char) : List Char :=
  sttFixes.foldl (fun acc pt => pyReplace pt.1 pt.2 acc) s

/-- Lines 70-72 of `_normalize_transcript`: whitespace collapse, lowercase,
then the STT fixes. -/
def normalizeText (x : List Char) : List Char := apply_stt_fixes (lowerL (collapse x))

/-- Python `str.title()` worker (ASCII model): uppercase a letter that
follows a non-letter, lowercase a letter that follows a letter; the flag
records whether the previous character was a letter. -/
def pyTitleGo : Bool → List Char → List Char
  | _, [] => []
  | prev, c :: rest =>
    if c.isAlpha then
      (if prev then lowerChar c else upperChar c) :: pyTitleGo true rest
    else c :: pyTitleGo false rest

/-- Python `str.title()` (ASCII model). -/
def pyTitle (s : List Char) : List Char := pyTitleGo false s

/-- `product_map.get(canonical) or canonical.replace("_", " ").title()`
(line 78): a missing or empty map entry falls back to the title-cased key
with underscores replaced by spaces. -/
def displayOf (canonical : List Char) (product_map : List (List Char × List Char)) :
    List Char :=
  match (product_map.find? (fun kv => kv.1 == canonical)).map Prod.snd with
  | some v => if v = [] then pyTitle (pyReplace (str "_") (str " ") canonical) else v
  | none => pyTitle (pyReplace (str "_") (str " ") canonical)

/-- The inner loop exit test of lines 75-77: some variant's lowercase form
is a substring of the text. -/
def groupMatches (lowered : List Char) (variants : List (List Char)) : Bool :=
  variants.any (fun v => isSubstr (lowerL v) lowered)

/-- Lines 79-80: replace every variant of the matched group by the
lowercased display name, in list order. -/
def rewriteGroup (variants : List (List Char)) (dn lowered : List Char) : List Char :=
  variants.foldl (fun acc v => pyReplace (lowerL v) (lowerL dn) acc) lowered

/-- The group scan of `_normalize_transcript` (lines 74-82): first group
with a matching variant wins; its variants are rewritten to the lowercased
display name and scanning stops. -/
def scanGroups (lowered : List Char) (product_map : List (List Char × List Char)) :
    List (List Char × List (List Char)) → List Char × Option (List Char)
  | [] => (lowered, none)
  | (canonical, variants) :: rest =>
    if groupMatches lowered variants then
      (rewriteGroup variants (displayOf canonical product_map) lowered,
       some (displayOf canonical product_map))
    else scanGroups lowered product_map rest

/-- `_normalize_transcript` (lines 69-82). -/
def normalize_transcript (text : List Char)
    (product_normalization : List (List Char × List (List Char)))
    (product_map : List (List Char × List Char)) : List Char × Option (List Char) :=
  scanGroups (normalizeText text) product_map product_normalization

/-- `_detect_intent` (lines 85-90): first intent in insertion order with a
keyword whose lowercase form is a substring of the text. -/
def detect_intent (normalized_text : List Char) :
    List (List Char × List (List Char)) → Option (List Char)
  | [] => none
  | (intent, keywords) :: rest =>
    if keywords.any (fun k => isSubstr (lowerL k) normalized_text) then some intent
    else detect_intent normalized_text rest

/-- Python `" ".join`. -/
def joinSpace : List (List Char) → List Char
  | [] => []
  | x :: rest => x ++ rest.foldr (fun y acc => ' ' :: y ++ acc) []

/-- The dedup loop of `_build_retrieval_query` (lines 107-114): strip each
item, drop empties, keep the first occurrence of each lowercased key; `seen`
models the Python set of keys already kept. -/
def dedupGo (seen : List (List Char)) : List (List Char) → List (List Char)
  | [] => []
  | item :: rest =>
    if pyStrip item ≠ [] ∧ lowerL (pyStrip item) ∉ seen then
      pyStrip item :: dedupGo (lowerL (pyStrip item) :: seen) rest
    else dedupGo seen rest

/-- The ordered candidate-term list of `_build_retrieval_query`
(lines 99-106): the text, the product name when new, the intent with
underscores as spaces, a fixed generic expansion, and the intent's
keywords. -/
def queryParts (normalized_text : List Char) (product_name intent : Option (List Char))
    (intent_keywords : List (List Char × List (List Char))) : List (List Char) :=
  let parts := if normalized_text ≠ [] then [normalized_text] else []
  let parts := match product_name with
    | some pn =>
      if pn ≠ [] ∧ ¬ (isSubstr (lowerL pn) normalized_text = true) then parts ++ [pn]
      else parts
    | none => parts
  let parts := match intent with
    | some it => if it ≠ [] then parts ++ [pyReplace (str "_") (str " ") it] else parts
    | none => parts
  let expansion := [str "features", str "eligibility", str "documents", str "process"]
  let expansion := match intent with
    | some it =>
      if it ≠ [] then
        match intent_keywords.find? (fun kv => kv.1 == it) with
        | some kv => expansion ++ kv.2
        | none => expansion
      else expansion
    | none => expansion
  parts ++ expansion

/-- `_build_retrieval_query` (lines 93-115). -/
def build_retrieval_query (normalized_text : List Char)
    (product_name intent : Option (List Char))
    (intent_keywords : List (List Char × List (List Char))) : List Char :=
  joinSpace (dedupGo [] (queryParts normalized_text product_name intent intent_keywords))

/-- Python `x or y` for an optional string: a missing value and the empty
string are both falsy. -/
def pyOrS (a : Option (List Char)) (b : List Char) : List Char :=
  match a with
  | some s => if s = [] then b else s
  | none => b

/-- Python `fallbacks.get(k)`. -/
def getT (fallbacks : List (List Char × List Char)) (k : List Char) :
    Option (List Char) :=
  (fallbacks.find? (fun kv => kv.1 == k)).map Prod.snd

/-- The literal default reply of `_fallback_response`. -/
def defaultMsg : List Char := str "Mazrat, main samajh nahi saka."

/-- `_fallback_response` (lines 118-129). -/
def fallback_response (normalized_text : List Char)
    (product_name intent : Option (List Char))
    (fallbacks : List (List Char × List Char)) : List Char :=
  let is_account := isSubstr (str "account") normalized_text
    || intent == some (str "account_benefits") || intent == some (str "account_opening")
  let product_absent := (product_name.getD []).isEmpty
  if is_account && product_absent then
    pyOrS (getT fallbacks (str "clarify_account"))
      (pyOrS (getT fallbacks (str "handoff")) defaultMsg)
  else if intent == some (str "account_opening") then
    pyOrS (getT fallbacks (str "general_opening"))
      (pyOrS (getT fallbacks (str "handoff")) defaultMsg)
  else pyOrS (getT fallbacks (str "handoff")) defaultMsg

/-- A catalog account entry: optional `id` and `name` fields. -/
structure CatalogItem where
  id : Option (List Char)
  name : Option (List Char)
  deriving DecidableEq

/-- A parsed catalog document: its `accounts` list, with
`data.get("accounts", [])` folded into the representation. -/
structure Catalog where
  accounts : List CatalogItem
  deriving DecidableEq

/-- A file system for the catalog path: `none` means the file does not
exist; `some none` means the file exists but `json.load` fails on it;
`some (some c)` means it parses to `c`. -/
def FileSys := List Char → Option (Option Catalog)

/-- The accounts loop of `_load_product_map` (lines 53-58): keep the
`(id, name)` pairs whose fields are present and non-empty (Python
truthiness on line 57), in list order. -/
def buildCatalogMap (data : Catalog) : List (List Char × List Char) :=
  data.accounts.foldl (fun m item =>
    match item.id, item.name with
    | some pid, some name =>
      if pid ≠ [] ∧ name ≠ [] then m ++ [(pid, name)] else m
    | _, _ => m) []

/-- `_load_product_map` (lines 48-59); `_load_json` raising on a malformed
file (line 36) is modelled as `Except.error`. -/
def load_product_map (rag_path : List Char) (fs : FileSys) :
    Except Unit (List (List Char × List Char)) :=
  if !((str ".json").isSuffixOf (lowerL rag_path)) || (fs rag_path).isNone then
    Except.ok []
  else match fs rag_path with
    | none => Except.ok []
    | some none => Except.error ()
    | some (some data) => Except.ok (buildCatalogMap data)

/-! ### Fuel irrelevance and equations for pyReplace -/

theorem pyReplaceF_fuel (p t : List Char) :
    ∀ n m s, s.length < n → s.length < m → pyReplaceF p t n s = pyReplaceF p t m s := by
  intro n
  induction n with
  | zero => intro m s hn; exact absurd hn (Nat.not_lt_zero _)
  | succ n ih =>
    intro m s hn hm
    match m, hm with
    | m + 1, hm =>
      match s with
      | [] => rfl
      | c :: rest =>
        simp only [pyReplaceF]
        by_cases hp : p = []
        · rw [if_pos hp, if_pos hp]
          have : rest.length < n := by simpa using hn
          rw [ih m rest this (by simpa using hm)]
        · rw [if_neg hp, if_neg hp]
          by_cases hpre : p.isPrefixOf (c :: rest) = true
          · rw [if_pos hpre, if_pos hpre]
            have hlen : ((c :: rest).drop p.length).length < n := by
              have hpl : 0 < p.length := List.length_pos.mpr hp
              simp only [List.length_drop, List.length_cons]
              simp only [List.length_cons] at hn
              omega
            have hlen2 : ((c :: rest).drop p.length).length < m := by
              have hpl : 0 < p.length := List.length_pos.mpr hp
              simp only [List.length_drop, List.length_cons]
              simp only [List.length_cons] at hm
              omega
            rw [ih m _ hlen hlen2]
          · rw [if_neg hpre, if_neg hpre]
            have : rest.length < n := by simpa using hn
            rw [ih m rest this (by simpa using hm)]

theorem pyReplace_nil (p t : List Char) :
    pyReplace p t [] = if p = [] then t else [] := rfl

theorem pyReplace_cons_match {p : List Char} (t : List Char) {c : Char} {rest : List Char}
    (hp : p ≠ []) (hm : p.isPrefixOf (c :: rest) = true) :
    pyReplace p t (c :: rest) = t ++ pyReplace p t ((c :: rest).drop p.length) := by
  show pyReplaceF p t ((c :: rest).length + 1) (c :: rest) = _
  simp only [List.length_cons]
  simp only [pyReplaceF]
  rw [if_neg hp, if_pos hm]
  have hpl : 0 < p.length := List.length_pos.mpr hp
  refine congrArg (t ++ ·) (pyReplaceF_fuel p t _ _ _ ?_ ?_)
  · simp only [List.length_drop, List.length_cons]; omega
  · simp only [List.length_drop, List.length_cons]; omega

theorem pyReplace_cons_nomatch {p : List Char} (t : List Char) {c : Char} {rest : List Char}
    (hp : p ≠ []) (hm : ¬ p.isPrefixOf (c :: rest) = true) :
    pyReplace p t (c :: rest) = c :: pyReplace p t rest := by
  show pyReplaceF p t ((c :: rest).length + 1) (c :: rest) = _
  simp only [List.length_cons]
  simp only [pyReplaceF]
  rw [if_neg hp, if_neg hm]
  exact congrArg (c :: ·) (pyReplaceF_fuel p t _ _ _ (Nat.lt_succ_self _) (Nat.lt_succ_self _))

/-! ### Substring infrastructure -/

theorem isSubstr_nil (q : List Char) : isSubstr q [] = q.isEmpty := rfl

theorem isSubstr_cons (q : List Char) (c : Char) (l : List Char) :
    isSubstr q (c :: l) = (q.isPrefixOf (c :: l) || isSubstr q l) := rfl

theorem prefix_substr {q s : List Char} (h : q <+: s) : isSubstr q s = true := by
  match s with
  | [] =>
    have hq : q = [] := List.prefix_nil.mp h
    subst hq; rfl
  | c :: rest =>
    rw [isSubstr_cons]
    have hb : q.isPrefixOf (c :: rest) = true := List.isPrefixOf_iff_prefix.mpr h
    rw [hb, Bool.true_or]

theorem substr_suffix_mono {q s₂ s₁ : List Char} (hsub : isSubstr q s₂ = true)
    (hs : s₂ <:+ s₁) : isSubstr q s₁ = true := by
  obtain ⟨w, rfl⟩ := hs
  induction w with
  | nil => simpa using hsub
  | cons c w ihw =>
    rw [List.cons_append, isSubstr_cons, ihw, Bool.or_true]

theorem prefix_append_cases {r a b : List Char} (h : r <+: a ++ b) :
    r <+: a ∨ ∃ r₂, r = a ++ r₂ ∧ r₂ <+: b := by
  induction a generalizing r with
  | nil => exact Or.inr ⟨r, by simp, by simpa using h⟩
  | cons c a' ih =>
    match r with
    | [] => exact Or.inl List.nil_prefix
    | d :: r' =>
      rw [List.cons_append, List.cons_prefix_cons] at h
      obtain ⟨rfl, h2⟩ := h
      rcases ih h2 with h3 | ⟨r₂, rfl, h4⟩
      · exact Or.inl (List.cons_prefix_cons.mpr ⟨rfl, h3⟩)
      · exact Or.inr ⟨r₂, by simp, h4⟩

theorem isSubstr_append_decomp (q a b : List Char) (h : isSubstr q (a ++ b) = true) :
    isSubstr q a = true ∨ isSubstr q b = true ∨
      ∃ q₁ q₂, q = q₁ ++ q₂ ∧ q₁ ≠ [] ∧ q₂ ≠ [] ∧ q₁ <:+ a ∧ q₂ <+: b := by
  induction a with
  | nil => exact Or.inr (Or.inl (by simpa using h))
  | cons c a' ih =>
    rw [List.cons_append, isSubstr_cons, Bool.or_eq_true] at h
    rcases h with h | h
    · have hq : q <+: (c :: a') ++ b := by
        rw [List.cons_append]
        exact List.isPrefixOf_iff_prefix.mp h
      rcases prefix_append_cases hq with h1 | ⟨q₂, rfl, h3⟩
      · exact Or.inl (prefix_substr h1)
      · by_cases hq2 : q₂ = []
        · subst hq2
          exact Or.inl (prefix_substr (by simp))
        · exact Or.inr (Or.inr ⟨c :: a', q₂, rfl, by simp, hq2, List.suffix_refl _, h3⟩)
    · rcases ih h with h1 | h1 | ⟨q₁, q₂, hq, h2, h3, h4, h5⟩
      · exact Or.inl (substr_suffix_mono h1 (List.suffix_cons c a'))
      · exact Or.inr (Or.inl h1)
      · exact Or.inr (Or.inr ⟨q₁, q₂, hq, h2, h3, h4.trans (List.suffix_cons c a'), h5⟩)

theorem tails_mem_tail {q : List Char} {d : Char} {r₂ : List Char}
    (h : (d :: r₂) ∈ q.tails) : r₂ ∈ q.tails := by
  rw [List.mem_tails] at h ⊢
  obtain ⟨w, hw⟩ := h
  exact ⟨w ++ [d], by rw [← hw]; simp⟩

/-- A match of a suffix of `q` starting at a kept (unreplaced) character of
the input survives replacement: if it is a prefix of the output it was a
prefix of the input.  The side conditions say that no nonempty suffix of `q`
begins inside or exactly at an inserted copy of `t`. -/
theorem repl_track (p t q : List Char) (hp : p ≠ [])
    (hc : ∀ u ∈ q.tails, u ≠ [] → ¬ u <+: t)
    (he : ∀ u ∈ q.tails, ¬ t <+: u) :
    ∀ n s r, s.length ≤ n → r ∈ q.tails → r <+: pyReplace p t s → r <+: s := by
  intro n
  induction n with
  | zero =>
    intro s r hl hr hpre
    have hs : s = [] := List.length_eq_zero.mp (Nat.le_zero.mp hl)
    subst hs
    rwa [pyReplace_nil, if_neg hp] at hpre
  | succ n ih =>
    intro s r hl hr hpre
    match s with
    | [] => rwa [pyReplace_nil, if_neg hp] at hpre
    | c :: rest =>
      by_cases hm : p.isPrefixOf (c :: rest) = true
      · rw [pyReplace_cons_match t hp hm] at hpre
        rcases prefix_append_cases hpre with h1 | ⟨r₂, rfl, _⟩
        · rcases eq_or_ne r [] with rfl | hr0
          · exact List.nil_prefix
          · exact absurd h1 (hc r hr hr0)
        · exact absurd ⟨r₂, rfl⟩ (he _ hr)
      · rw [pyReplace_cons_nomatch t hp hm] at hpre
        match r with
        | [] => exact List.nil_prefix
        | d :: r₂ =>
          rw [List.cons_prefix_cons] at hpre
          obtain ⟨rfl, h2⟩ := hpre
          have hr₂ : r₂ ∈ q.tails := tails_mem_tail hr
          have hl2 : rest.length ≤ n := by simpa using hl
          exact List.cons_prefix_cons.mpr ⟨rfl, ih rest r₂ hl2 hr₂ h2⟩

/-- No occurrence of the pattern `q` in the output of replacing `p` by `t`,
provided `q` does not occur inside `t`, cannot bridge out of a copy of `t`
(hb), cannot start in kept text and run into a copy of `t` (hc, he), and
either did not occur in the input or is the replaced pattern itself. -/
theorem repl_no_occ (p t q : List Char) (hp : p ≠ []) (hq : q ≠ [])
    (ha : isSubstr q t = false)
    (hb : ∀ u ∈ t.tails, u ≠ [] → u <+: q → u = q)
    (hc : ∀ u ∈ q.tails, u ≠ [] → ¬ u <+: t)
    (he : ∀ u ∈ q.tails, ¬ t <+: u) :
    ∀ n s, s.length ≤ n → (isSubstr q s = false ∨ q = p) →
      isSubstr q (pyReplace p t s) = false := by
  intro n
  induction n with
  | zero =>
    intro s hl _
    have hs : s = [] := List.length_eq_zero.mp (Nat.le_zero.mp hl)
    subst hs
    rw [pyReplace_nil, if_neg hp, isSubstr_nil]
    exact List.isEmpty_eq_false.mpr hq
  | succ n ih =>
    intro s hl hs
    match s with
    | [] =>
      rw [pyReplace_nil, if_neg hp, isSubstr_nil]
      exact List.isEmpty_eq_false.mpr hq
    | c :: rest =>
      by_cases hm : p.isPrefixOf (c :: rest) = true
      · rw [pyReplace_cons_match t hp hm]
        by_contra hcon
        rw [Bool.not_eq_false] at hcon
        rcases isSubstr_append_decomp q t _ hcon with h1 | h1 | ⟨q₁, q₂, hsplit, h2, h3, h4, _⟩
        · rw [ha] at h1; exact Bool.false_ne_true h1
        · have hpl : 0 < p.length := List.length_pos.mpr hp
          have hdl : ((c :: rest).drop p.length).length ≤ n := by
            simp only [List.length_drop, List.length_cons]
            simp only [List.length_cons] at hl
            omega
          have hrec : isSubstr q ((c :: rest).drop p.length) = false ∨ q = p := by
            rcases hs with hs | hs
            · left
              by_contra h'
              rw [Bool.not_eq_false] at h'
              have := substr_suffix_mono h' (List.drop_suffix _ _)
              rw [hs] at this
              exact Bool.false_ne_true this
            · exact Or.inr hs
          rw [ih _ hdl hrec] at h1
          exact Bool.false_ne_true h1
        · have hq₁ : q₁ <+: q := ⟨q₂, hsplit.symm⟩
          have heq : q₁ = q := hb q₁ ((List.mem_tails _ _).mpr h4) h2 hq₁
          subst heq
          have : q₂ = [] := by
            have h0 : q₁ ++ q₂ = q₁ ++ [] := by
              rw [List.append_nil]; exact hsplit.symm
            exact List.append_cancel_left h0
          exact h3 this
      · rw [pyReplace_cons_nomatch t hp hm, isSubstr_cons]
        have hrest : isSubstr q (pyReplace p t rest) = false := by
          apply ih rest (by simpa using hl)
          rcases hs with hs | hs
          · left
            by_contra h'
            rw [Bool.not_eq_false] at h'
            have := substr_suffix_mono h' (List.suffix_cons c rest)
            rw [hs] at this
            exact Bool.false_ne_true this
          · exact Or.inr hs
        have hpref : q.isPrefixOf (c :: pyReplace p t rest) = false := by
          by_contra h'
          rw [Bool.not_eq_false] at h'
          have h1 : q <+: pyReplace p t (c :: rest) := by
            rw [pyReplace_cons_nomatch t hp hm]
            exact List.isPrefixOf_iff_prefix.mp h'
          have h2 : q <+: c :: rest :=
            repl_track p t q hp hc he (c :: rest).length (c :: rest) q
              (Nat.le_refl _) ((List.mem_tails _ _).mpr (List.suffix_refl q)) h1
          rcases hs with hs | hs
          · have := prefix_substr h2
            rw [hs] at this
            exact Bool.false_ne_true this
          · subst hs
            exact hm ( List.isPrefixOf_iff_prefix.mpr h2)
        rw [hrest, hpref]
        rfl

/-- Replacing a pattern that does not occur leaves the text unchanged. -/
theorem pyReplace_id {p : List Char} (t : List Char) (hp : p ≠ []) :
    ∀ s, isSubstr p s = false → pyReplace p t s = s := by
  intro s
  induction s with
  | nil => intro _; rw [pyReplace_nil, if_neg hp]
  | cons c rest ih =>
    intro h
    rw [isSubstr_cons, Bool.or_eq_false_iff] at h
    rw [pyReplace_cons_nomatch t hp (by rw [h.1]; exact Bool.false_ne_true), ih h.2]

/-! ### The fixed text contains none of the STT sources -/

theorem apply_stt_fixes_eq (s : List Char) :
    apply_stt_fixes s =
      pyReplace (str "a san") (str "asaan")
        (pyReplace (str "a/c") (str "account")
          (pyReplace (str "a count") (str "account") s)) := rfl

theorem no_stt_sources (s : List Char) :
    isSubstr (str "a count") (apply_stt_fixes s) = false ∧
    isSubstr (str "a/c") (apply_stt_fixes s) = false ∧
    isSubstr (str "a san") (apply_stt_fixes s) = false := by
  have h1 : isSubstr (str "a count") (pyReplace (str "a count") (str "account") s) = false :=
    repl_no_occ (str "a count") (str "account") (str "a count") (by decide) (by decide)
      (by decide) (by decide) (by decide) (by decide) s.length s (Nat.le_refl _) (Or.inr rfl)
  have h2 : isSubstr (str "a count")
      (pyReplace (str "a/c") (str "account") (pyReplace (str "a count") (str "account") s))
      = false :=
    repl_no_occ (str "a/c") (str "account") (str "a count") (by decide) (by decide)
      (by decide) (by decide) (by decide) (by decide) _ _ (Nat.le_refl _) (Or.inl h1)
  have h3 : isSubstr (str "a count") (apply_stt_fixes s) = false := by
    rw [apply_stt_fixes_eq]
    exact repl_no_occ (str "a san") (str "asaan") (str "a count") (by decide) (by decide)
      (by decide) (by decide) (by decide) (by decide) _ _ (Nat.le_refl _) (Or.inl h2)
  have h4 : isSubstr (str "a/c")
      (pyReplace (str "a/c") (str "account") (pyReplace (str "a count") (str "account") s))
      = false :=
    repl_no_occ (str "a/c") (str "account") (str "a/c") (by decide) (by decide)
      (by decide) (by decide) (by decide) (by decide) _ _ (Nat.le_refl _) (Or.inr rfl)
  have h5 : isSubstr (str "a/c") (apply_stt_fixes s) = false := by
    rw [apply_stt_fixes_eq]
    exact repl_no_occ (str "a san") (str "asaan") (str "a/c") (by decide) (by decide)
      (by decide) (by decide) (by decide) (by decide) _ _ (Nat.le_refl _) (Or.inl h4)
  have h6 : isSubstr (str "a san") (apply_stt_fixes s) = false := by
    rw [apply_stt_fixes_eq]
    exact repl_no_occ (str "a san") (str "asaan") (str "a san") (by decide) (by decide)
      (by decide) (by decide) (by decide) (by decide) _ _ (Nat.le_refl _) (Or.inr rfl)
  exact ⟨h3, h5, h6⟩

/-- The STT fixes are the identity on a text free of all three sources. -/
theorem apply_stt_fixes_id (y : List Char)
    (h1 : isSubstr (str "a count") y = false)
    (h2 : isSubstr (str "a/c") y = false)
    (h3 : isSubstr (str "a san") y = false) :
    apply_stt_fixes y = y := by
  rw [apply_stt_fixes_eq, pyReplace_id (str "account") (by decide) y h1,
    pyReplace_id (str "account") (by decide) y h2,
    pyReplace_id (str "asaan") (by decide) y h3]

/-! ### Collapsed-whitespace shape -/

/-- Every whitespace character in the list is a single space followed by a
non-whitespace character (so no run of two, no trailing run, and no
whitespace other than a space). -/
def spTail : List Char → Bool
  | [] => true
  | [c] => !wsB c
  | c :: d :: rest => (!wsB c || (c == ' ' && !wsB d)) && spTail (d :: rest)

/-- `spTail` plus a non-whitespace first character: exactly the fixed points
of `collapse`. -/
def spOk : List Char → Bool
  | [] => true
  | c :: rest => !wsB c && spTail (c :: rest)

theorem spTail_cons₂ (c d : Char) (rest : List Char) :
    spTail (c :: d :: rest) = ((!wsB c || (c == ' ' && !wsB d)) && spTail (d :: rest)) := rfl

theorem spTail_cons_of {c : Char} {l : List Char} (hc : wsB c = false)
    (hl : spTail l = true) : spTail (c :: l) = true := by
  match l with
  | [] => simp [spTail, hc]
  | d :: rest => rw [spTail_cons₂, hc]; simpa using hl

theorem spTail_tail {c : Char} {l : List Char} (h : spTail (c :: l) = true) :
    spTail l = true := by
  match l with
  | [] => rfl
  | d :: rest =>
    rw [spTail_cons₂, Bool.and_eq_true] at h
    exact h.2

theorem spTail_drop (l : List Char) (h : spTail l = true) :
    ∀ n, spTail (l.drop n) = true := by
  induction l with
  | nil => intro n; rw [List.drop_nil]; rfl
  | cons c rest ih =>
    intro n
    match n with
    | 0 => exact h
    | n + 1 => exact ih (spTail_tail h) n

theorem spTail_of_noWs (l : List Char) (h : l.all (fun c => !wsB c) = true) :
    spTail l = true := by
  induction l with
  | nil => rfl
  | cons c rest ih =>
    rw [List.all_cons, Bool.and_eq_true] at h
    exact spTail_cons_of (by simpa using h.1) (ih h.2)

theorem spTail_append (b : List Char) (hb : spTail b = true) :
    ∀ a, spTail a = true → (∀ c, a.getLast? = some c → wsB c = false) →
      spTail (a ++ b) = true := by
  intro a
  induction a with
  | nil => intro _ _; simpa using hb
  | cons c a' ih =>
    intro ha hlast
    match a' with
    | [] =>
      have hc : wsB c = false := hlast c rfl
      simpa using spTail_cons_of hc hb
    | d :: a'' =>
      rw [List.cons_append, List.cons_append, spTail_cons₂]
      rw [spTail_cons₂, Bool.and_eq_true] at ha
      have htl : spTail ((d :: a'') ++ b) = true := by
        rw [List.cons_append] at ih ⊢
        exact ih ha.2 (fun e he => hlast e (by rw [List.getLast?_cons_cons]; exact he))
      rw [← List.cons_append, htl, ha.1]
      rfl

/-- All characters of the output of `pyReplace` come from the input or from
the replacement. -/
theorem mem_pyReplace {p : List Char} (t : List Char) (hp : p ≠ []) :
    ∀ n s, s.length ≤ n → ∀ c ∈ pyReplace p t s, c ∈ s ∨ c ∈ t := by
  intro n
  induction n with
  | zero =>
    intro s hl c hc
    have hs : s = [] := List.length_eq_zero.mp (Nat.le_zero.mp hl)
    subst hs
    rw [pyReplace_nil, if_neg hp] at hc
    exact absurd hc (List.not_mem_nil c)
  | succ n ih =>
    intro s hl c hc
    match s with
    | [] =>
      rw [pyReplace_nil, if_neg hp] at hc
      exact absurd hc (List.not_mem_nil c)
    | a :: rest =>
      by_cases hm : p.isPrefixOf (a :: rest) = true
      · rw [pyReplace_cons_match t hp hm, List.mem_append] at hc
        rcases hc with hc | hc
        · exact Or.inr hc
        · have hpl : 0 < p.length := List.length_pos.mpr hp
          have hdl : ((a :: rest).drop p.length).length ≤ n := by
            simp only [List.length_drop, List.length_cons]
            simp only [List.length_cons] at hl
            omega
          rcases ih _ hdl c hc with h | h
          · exact Or.inl (List.drop_subset _ _ h)
          · exact Or.inr h
      · rw [pyReplace_cons_nomatch t hp hm, List.mem_cons] at hc
        rcases hc with rfl | hc
        · exact Or.inl (List.mem_cons_self _ _)
        · rcases ih rest (by simpa using hl) c hc with h | h
          · exact Or.inl (List.mem_cons_of_mem _ h)
          · exact Or.inr h

theorem pyReplace_ne_nil {p : List Char} (t : List Char) (hp : p ≠ []) (ht : t ≠ [])
    (c : Char) (rest : List Char) : pyReplace p t (c :: rest) ≠ [] := by
  by_cases hm : p.isPrefixOf (c :: rest) = true
  · rw [pyReplace_cons_match t hp hm]
    exact fun h => ht (List.append_eq_nil.mp h).1
  · rw [pyReplace_cons_nomatch t hp hm]
    exact List.cons_ne_nil c _

theorem pyReplace_head {p : List Char} (t : List Char) (hp : p ≠ []) (ht : t ≠ [])
    (c : Char) (rest : List Char) :
    (pyReplace p t (c :: rest)).head? = some c ∨
      (pyReplace p t (c :: rest)).head? = t.head? := by
  by_cases hm : p.isPrefixOf (c :: rest) = true
  · rw [pyReplace_cons_match t hp hm]
    right
    match t, ht with
    | e :: t', _ => rfl
  · rw [pyReplace_cons_nomatch t hp hm]
    exact Or.inl rfl

theorem all_head {pr : Char → Bool} {t : List Char} (h : t.all pr = true) {e : Char}
    (he : t.head? = some e) : pr e = true := by
  match t, he with
  | a :: t', he =>
    have : a = e := by simpa using he
    subst this
    rw [List.all_cons, Bool.and_eq_true] at h
    exact h.1

theorem spTail_pyReplace (p t : List Char) (hp : p ≠ []) (ht : t ≠ [])
    (htws : t.all (fun c => !wsB c) = true) :
    ∀ n s, s.length ≤ n → spTail s = true → spTail (pyReplace p t s) = true := by
  intro n
  induction n with
  | zero =>
    intro s hl _
    have hs : s = [] := List.length_eq_zero.mp (Nat.le_zero.mp hl)
    subst hs
    rw [pyReplace_nil, if_neg hp]
    rfl
  | succ n ih =>
    intro s hl hsp
    match s with
    | [] => rw [pyReplace_nil, if_neg hp]; rfl
    | c :: rest =>
      by_cases hm : p.isPrefixOf (c :: rest) = true
      · rw [pyReplace_cons_match t hp hm]
        have hpl : 0 < p.length := List.length_pos.mpr hp
        have hdl : ((c :: rest).drop p.length).length ≤ n := by
          simp only [List.length_drop, List.length_cons]
          simp only [List.length_cons] at hl
          omega
        have hout : spTail (pyReplace p t ((c :: rest).drop p.length)) = true :=
          ih _ hdl (spTail_drop _ hsp _)
        refine spTail_append _ hout t (spTail_of_noWs t htws) ?_
        intro e he
        have hmem : e ∈ t := List.mem_of_getLast?_eq_some he
        have := List.all_eq_true.mp htws e hmem
        simpa using this
      · rw [pyReplace_cons_nomatch t hp hm]
        by_cases hwc : wsB c = true
        · match rest with
          | [] =>
            have : (!wsB c) = true := hsp
            rw [hwc] at this
            exact absurd this (by decide)
          | d :: rest2 =>
            rw [spTail_cons₂, Bool.and_eq_true] at hsp
            have hcond := hsp.1
            rw [hwc] at hcond
            have hcd : (c == ' ' && !wsB d) = true := by simpa using hcond
            rw [Bool.and_eq_true] at hcd
            have hout : spTail (pyReplace p t (d :: rest2)) = true :=
              ih _ (by simpa using Nat.le_of_succ_le_succ hl) hsp.2
            have hne : pyReplace p t (d :: rest2) ≠ [] := pyReplace_ne_nil t hp ht d rest2
            match hv : pyReplace p t (d :: rest2) with
            | [] => exact absurd hv hne
            | e :: out' =>
              have hhead : wsB e = false := by
                rcases pyReplace_head t hp ht d rest2 with h | h
                · rw [hv] at h
                  have : e = d := by simpa using h
                  subst this
                  simpa using hcd.2
                · rw [hv] at h
                  have := all_head htws h.symm
                  simpa using this
              rw [spTail_cons₂]
              rw [hv] at hout
              rw [hout, hwc, hcd.1, hhead]
              rfl
        · have hwc' : wsB c = false := by simpa using hwc
          exact spTail_cons_of hwc' (ih rest (by simpa using Nat.le_of_succ_le_succ hl)
            (spTail_tail hsp))

theorem spOk_pyReplace (p t : List Char) (hp : p ≠ []) (ht : t ≠ [])
    (htws : t.all (fun c => !wsB c) = true) (s : List Char) (h : spOk s = true) :
    spOk (pyReplace p t s) = true := by
  match s with
  | [] => rw [pyReplace_nil, if_neg hp]; rfl
  | c :: rest =>
    have hsp : spTail (c :: rest) = true := by
      have := h
      rw [spOk, Bool.and_eq_true] at this
      exact this.2
    have hc : wsB c = false := by
      have := h
      rw [spOk, Bool.and_eq_true] at this
      simpa using this.1
    have hout : spTail (pyReplace p t (c :: rest)) = true :=
      spTail_pyReplace p t hp ht htws (c :: rest).length _ (Nat.le_refl _) hsp
    match hv : pyReplace p t (c :: rest) with
    | [] => rfl
    | e :: out' =>
      have hhead : wsB e = false := by
        rcases pyReplace_head t hp ht c rest with h' | h'
        · rw [hv] at h'
          have : e = c := by simpa using h'
          subst this
          exact hc
        · rw [hv] at h'
          have := all_head htws h'.symm
          simpa using this
      rw [hv] at hout
      rw [spOk, hout, hhead]
      rfl

/-! ### collapse: fixed points and output shape -/

theorem collapseCore_cons_ws {c : Char} (pending : Bool) (rest : List Char)
    (h : wsB c = true) : collapseCore pending (c :: rest) = collapseCore true rest := by
  simp only [collapseCore, h]
  rfl

theorem collapseCore_cons_nws {c : Char} (rest : List Char) (h : wsB c = false) :
    collapseCore false (c :: rest) = c :: collapseCore false rest := by
  simp only [collapseCore, h]
  rfl

theorem collapseCore_cons_nws_pending {c : Char} (rest : List Char) (h : wsB c = false) :
    collapseCore true (c :: rest) = ' ' :: c :: collapseCore false rest := by
  simp only [collapseCore, h]
  rfl

theorem collapseCore_eq_self :
    ∀ n z, z.length ≤ n → spTail z = true →
      (∀ c rest, z = c :: rest → wsB c = false) → collapseCore false z = z := by
  intro n
  induction n with
  | zero =>
    intro z hl _ _
    have hz : z = [] := List.length_eq_zero.mp (Nat.le_zero.mp hl)
    subst hz
    rfl
  | succ n ih =>
    intro z hl hsp hhead
    match z with
    | [] => rfl
    | c :: rest =>
      have hc : wsB c = false := hhead c rest rfl
      rw [collapseCore_cons_nws rest hc]
      match rest with
      | [] => rfl
      | d :: rest' =>
        by_cases hd : wsB d = true
        · rw [spTail_cons₂, Bool.and_eq_true] at hsp
          match rest' with
          | [] =>
            have : (!wsB d) = true := hsp.2
            rw [hd] at this
            exact absurd this (by decide)
          | e :: rest'' =>
            rw [spTail_cons₂, Bool.and_eq_true] at hsp
            have hcond := hsp.2.1
            rw [hd] at hcond
            have hde : (d == ' ' && !wsB e) = true := by simpa using hcond
            rw [Bool.and_eq_true] at hde
            have hds : d = ' ' := by simpa using hde.1
            have hew : wsB e = false := by simpa using hde.2
            rw [collapseCore_cons_ws false (e :: rest'') hd,
              collapseCore_cons_nws_pending rest'' hew]
            have hrec : collapseCore false (e :: rest'') = e :: rest'' := by
              refine ih (e :: rest'') ?_ hsp.2.2 ?_
              · simp only [List.length_cons] at hl ⊢
                omega
              · intro c' rest0 h0
                have : c' = e := by
                  have := h0
                  injection this with h1 _
                  exact h1.symm
                subst this
                exact hew
            rw [collapseCore_cons_nws rest'' hew] at hrec
            injection hrec with _ hrec2
            rw [hrec2, hds]
        · have hd' : wsB d = false := by simpa using hd
          rw [spTail_cons₂, Bool.and_eq_true] at hsp
          have hrec : collapseCore false (d :: rest') = d :: rest' := by
            refine ih (d :: rest') ?_ hsp.2 ?_
            · simp only [List.length_cons] at hl ⊢
              omega
            · intro c' rest0 h0
              have : c' = d := by
                injection h0 with h1 _
                exact h1.symm
              subst this
              exact hd'
          rw [hrec]

theorem spTail_collapseCore :
    ∀ n s, s.length ≤ n →
      spTail (collapseCore false s) = true ∧ spTail (collapseCore true s) = true := by
  intro n
  induction n with
  | zero =>
    intro s hl
    have hs : s = [] := List.length_eq_zero.mp (Nat.le_zero.mp hl)
    subst hs
    exact ⟨rfl, rfl⟩
  | succ n ih =>
    intro s hl
    match s with
    | [] => exact ⟨rfl, rfl⟩
    | c :: rest =>
      have hl' : rest.length ≤ n := by simpa using Nat.le_of_succ_le_succ hl
      by_cases hc : wsB c = true
      · rw [collapseCore_cons_ws false rest hc, collapseCore_cons_ws true rest hc]
        exact ⟨(ih rest hl').2, (ih rest hl').2⟩
      · have hc' : wsB c = false := by simpa using hc
        have hfalse : spTail (c :: collapseCore false rest) = true :=
          spTail_cons_of hc' (ih rest hl').1
        constructor
        · rw [collapseCore_cons_nws rest hc']
          exact hfalse
        · rw [collapseCore_cons_nws_pending rest hc']
          have hcond : (!wsB ' ' || (' ' == ' ' && !wsB c)) = true := by
            rw [hc']
            decide
          rw [spTail_cons₂, hfalse, hcond]
          rfl

theorem dropWhile_head_not :
    ∀ l : List Char, ∀ c rest, l.dropWhile wsB = c :: rest → wsB c = false := by
  intro l
  induction l with
  | nil => intro c rest h; exact absurd h (by simp)
  | cons a l' ih =>
    intro c rest h
    by_cases ha : wsB a = true
    · rw [List.dropWhile_cons, ha] at h
      exact ih c rest (by simpa using h)
    · have ha' : wsB a = false := by simpa using ha
      rw [List.dropWhile_cons, ha'] at h
      simp only [Bool.false_eq_true, if_false] at h
      injection h with h1 _
      subst h1
      exact ha'

theorem spOk_collapse (x : List Char) : spOk (collapse x) = true := by
  unfold collapse
  match hv : x.dropWhile wsB with
  | [] => rfl
  | c :: rest =>
    have hc : wsB c = false := dropWhile_head_not x c rest hv
    rw [collapseCore_cons_nws rest hc, spOk, hc]
    have := (spTail_collapseCore rest.length rest (Nat.le_refl _)).1
    rw [Bool.not_false, Bool.true_and]
    exact spTail_cons_of hc this

theorem collapse_eq_self_of_spOk (z : List Char) (h : spOk z = true) :
    collapse z = z := by
  match z with
  | [] => rfl
  | c :: rest =>
    rw [spOk, Bool.and_eq_true] at h
    have hc : wsB c = false := by simpa using h.1
    unfold collapse
    rw [List.dropWhile_cons, hc]
    simp only [Bool.false_eq_true, if_false]
    exact collapseCore_eq_self (c :: rest).length _ (Nat.le_refl _) h.2
      (fun c' rest' h0 => by
        have : c' = c := by injection h0 with h1 _; exact h1.symm
        subst this
        exact hc)

/-! ### Lowercasing lemmas -/

theorem ucPairs_ws : ∀ pr ∈ ucPairs, wsB pr.1 = false ∧ wsB pr.2 = false := by decide

theorem ucPairs_snd_not_fst :
    ∀ pr ∈ ucPairs, ucPairs.find? (fun q => q.1 == pr.2) = none := by decide

theorem lowerChar_eq_of_find_none {c : Char}
    (hv : ucPairs.find? (fun p => p.1 == c) = none) : lowerChar c = c := by
  unfold lowerChar
  rw [hv]
  rfl

theorem lowerChar_eq_of_find_some {c : Char} {pr : Char × Char}
    (hv : ucPairs.find? (fun p => p.1 == c) = some pr) : lowerChar c = pr.2 := by
  unfold lowerChar
  rw [hv]
  rfl

theorem lowerChar_ws (c : Char) : wsB (lowerChar c) = wsB c := by
  match hv : ucPairs.find? (fun p => p.1 == c) with
  | none => rw [lowerChar_eq_of_find_none hv]
  | some pr =>
    have hc : pr.1 = c := by simpa using List.find?_some hv
    have hws := ucPairs_ws pr (List.mem_of_find?_eq_some hv)
    rw [lowerChar_eq_of_find_some hv, hws.2, ← hc, hws.1]

theorem lowerChar_of_ws {c : Char} (h : wsB c = true) : lowerChar c = c := by
  have hv : ucPairs.find? (fun p => p.1 == c) = none := by
    rw [List.find?_eq_none]
    intro pr hpr hbeq
    have h1 : pr.1 = c := by simpa using hbeq
    have h2 := (ucPairs_ws pr hpr).1
    rw [h1, h] at h2
    exact Bool.noConfusion h2
  exact lowerChar_eq_of_find_none hv

theorem lowerChar_lowerChar (c : Char) : lowerChar (lowerChar c) = lowerChar c := by
  match hv : ucPairs.find? (fun p => p.1 == c) with
  | none => rw [lowerChar_eq_of_find_none hv, lowerChar_eq_of_find_none hv]
  | some pr =>
    have hlow := ucPairs_snd_not_fst pr (List.mem_of_find?_eq_some hv)
    rw [lowerChar_eq_of_find_some hv, lowerChar_eq_of_find_none hlow]

theorem spTail_lowerL : ∀ z, spTail z = true → spTail (lowerL z) = true := by
  intro z
  induction z with
  | nil => intro _; rfl
  | cons c rest ih =>
    intro h
    match rest with
    | [] =>
      have hc : (!wsB c) = true := h
      show spTail [lowerChar c] = true
      show (!wsB (lowerChar c)) = true
      rw [lowerChar_ws]
      exact hc
    | d :: rest' =>
      rw [spTail_cons₂, Bool.and_eq_true] at h
      show spTail (lowerChar c :: lowerChar d :: lowerL rest') = true
      rw [spTail_cons₂]
      have h2 : spTail (lowerL (d :: rest')) = true := ih h.2
      have hcond : (!wsB (lowerChar c) || (lowerChar c == ' ' && !wsB (lowerChar d))) = true := by
        rw [lowerChar_ws, lowerChar_ws]
        by_cases hc : wsB c = true
        · have := h.1
          rw [hc] at this
          have hcd : (c == ' ' && !wsB d) = true := by simpa using this
          rw [Bool.and_eq_true] at hcd
          have hcs : c = ' ' := by simpa using hcd.1
          rw [hc, lowerChar_of_ws hc, hcd.2]
          simp [hcs]
        · have hc' : wsB c = false := by simpa using hc
          rw [hc']
          rfl
      rw [hcond]
      show spTail (lowerChar d :: lowerL rest') = true
      exact h2

theorem spOk_lowerL (z : List Char) (h : spOk z = true) : spOk (lowerL z) = true := by
  match z with
  | [] => rfl
  | c :: rest =>
    rw [spOk, Bool.and_eq_true] at h
    show spOk (lowerChar c :: lowerL rest) = true
    rw [spOk, Bool.and_eq_true]
    constructor
    · rw [lowerChar_ws]
      exact h.1
    · exact spTail_lowerL (c :: rest) h.2

/-! ### The normalized text is a fixed point of every normalization stage -/

theorem map_eq_self_of_mem {f : Char → Char} :
    ∀ l : List Char, (∀ c ∈ l, f c = c) → l.map f = l := by
  intro l h
  induction l with
  | nil => rfl
  | cons c rest ih =>
    rw [List.map_cons, h c (List.mem_cons_self c rest),
      ih (fun c' hc' => h c' (List.mem_cons_of_mem c hc'))]

theorem normalizeText_chars (x : List Char) :
    ∀ c ∈ normalizeText x, lowerChar c = c := by
  intro c hc
  rw [show normalizeText x = apply_stt_fixes (lowerL (collapse x)) from rfl,
    apply_stt_fixes_eq] at hc
  have hfix1 : ∀ c ∈ str "asaan", lowerChar c = c := by decide
  have hfix2 : ∀ c ∈ str "account", lowerChar c = c := by decide
  rcases mem_pyReplace (str "asaan") (by decide) _ _ (Nat.le_refl _) c hc with hc | hc
  swap
  · exact hfix1 c hc
  rcases mem_pyReplace (str "account") (by decide) _ _ (Nat.le_refl _) c hc with hc | hc
  swap
  · exact hfix2 c hc
  rcases mem_pyReplace (str "account") (by decide) _ _ (Nat.le_refl _) c hc with hc | hc
  swap
  · exact hfix2 c hc
  obtain ⟨c', _, rfl⟩ := List.mem_map.mp hc
  exact lowerChar_lowerChar c'

theorem lowerL_normalizeText (x : List Char) :
    lowerL (normalizeText x) = normalizeText x :=
  map_eq_self_of_mem _ (normalizeText_chars x)

theorem spOk_normalizeText (x : List Char) : spOk (normalizeText x) = true := by
  have h0 : spOk (lowerL (collapse x)) = true := spOk_lowerL _ (spOk_collapse x)
  rw [show normalizeText x = apply_stt_fixes (lowerL (collapse x)) from rfl,
    apply_stt_fixes_eq]
  exact spOk_pyReplace _ _ (by decide) (by decide) (by decide) _
    (spOk_pyReplace _ _ (by decide) (by decide) (by decide) _
      (spOk_pyReplace _ _ (by decide) (by decide) (by decide) _ h0))

theorem collapse_normalizeText (x : List Char) :
    collapse (normalizeText x) = normalizeText x :=
  collapse_eq_self_of_spOk _ (spOk_normalizeText x)

/-- C4: normalization — whitespace trim and collapse, lowercasing, then
the fixed STT-fix table applied in table order — is idempotent: for every
string x, normalizeText (normalizeText x) = normalizeText x. -/
theorem normalizeText_idem (x : List Char) :
    normalizeText (normalizeText x) = normalizeText x := by
  show apply_stt_fixes (lowerL (collapse (normalizeText x))) = normalizeText x
  rw [collapse_normalizeText, lowerL_normalizeText]
  obtain ⟨h1, h2, h3⟩ := no_stt_sources (lowerL (collapse x))
  exact apply_stt_fixes_id _ h1 h2 h3

/-! ### First-match behaviour of the group scan and intent detection -/

/-- The exit test of one intent entry of `_detect_intent`. -/
def kwMatch (normalized_text : List Char) (g : List Char × List (List Char)) : Bool :=
  g.2.any (fun k => isSubstr (lowerL k) normalized_text)

theorem exists_first_match {α : Type} (p : α → Bool) :
    ∀ (l : List α) (i : Nat) (hi : i < l.length), p (l.get ⟨i, hi⟩) = true →
      ∃ k, ∃ hk : k < l.length, k ≤ i ∧ p (l.get ⟨k, hk⟩) = true ∧
        ∀ m (hm : m < l.length), m < k → p (l.get ⟨m, hm⟩) = false := by
  intro l
  induction l with
  | nil => intro i hi; exact absurd hi (by simp)
  | cons a l' ih =>
    intro i hi hp
    by_cases ha : p a = true
    · exact ⟨0, by simp, Nat.zero_le i, ha, fun m hm h0 => absurd h0 (Nat.not_lt_zero m)⟩
    · match i with
      | 0 => exact absurd hp ha
      | i' + 1 =>
        obtain ⟨k', hk', hle, hpk, hmin⟩ := ih i' (by simpa using hi) hp
        refine ⟨k' + 1, by simpa using hk', Nat.succ_le_succ hle, hpk, ?_⟩
        intro m hm h0
        match m with
        | 0 => simpa using ha
        | m' + 1 =>
          exact hmin m' (by simpa using hm) (Nat.lt_of_succ_lt_succ h0)

theorem scanGroups_at (lowered : List Char) (pm : List (List Char × List Char)) :
    ∀ (groups : List (List Char × List (List Char))) (i : Nat) (hi : i < groups.length),
      (∀ m (hm : m < groups.length), m < i →
        groupMatches lowered (groups.get ⟨m, hm⟩).2 = false) →
      groupMatches lowered (groups.get ⟨i, hi⟩).2 = true →
      scanGroups lowered pm groups =
        (rewriteGroup (groups.get ⟨i, hi⟩).2 (displayOf (groups.get ⟨i, hi⟩).1 pm) lowered,
         some (displayOf (groups.get ⟨i, hi⟩).1 pm)) := by
  intro groups
  induction groups with
  | nil => intro i hi; exact absurd hi (by simp)
  | cons g gr ih =>
    intro i hi hmin hmatch
    match g with
    | (canonical, variants) =>
      match i with
      | 0 =>
        have hm0 : groupMatches lowered variants = true := hmatch
        show scanGroups lowered pm ((canonical, variants) :: gr) =
          (rewriteGroup variants (displayOf canonical pm) lowered,
            some (displayOf canonical pm))
        unfold scanGroups
        rw [if_pos hm0]
      | i' + 1 =>
        have h0 : groupMatches lowered variants = false :=
          hmin 0 (by simp) (Nat.succ_pos i')
        have hstep : scanGroups lowered pm ((canonical, variants) :: gr) =
            scanGroups lowered pm gr := by
          show (if groupMatches lowered variants = true then
              (rewriteGroup variants (displayOf canonical pm) lowered,
                some (displayOf canonical pm))
            else scanGroups lowered pm gr) = scanGroups lowered pm gr
          rw [if_neg (by rw [h0]; exact Bool.false_ne_true)]
        rw [hstep]
        exact ih i' (by simpa using hi)
          (fun m hm h1 => hmin (m + 1) (by simpa using hm) (Nat.succ_lt_succ h1)) hmatch

theorem scanGroups_take_append (lowered : List Char) (pm : List (List Char × List Char)) :
    ∀ (groups : List (List Char × List (List Char))) (k : Nat) (hk : k < groups.length),
      (∀ m (hm : m < groups.length), m < k →
        groupMatches lowered (groups.get ⟨m, hm⟩).2 = false) →
      groupMatches lowered (groups.get ⟨k, hk⟩).2 = true →
      ∀ rest2, scanGroups lowered pm (groups.take (k + 1) ++ rest2) =
        scanGroups lowered pm groups := by
  intro groups
  induction groups with
  | nil => intro k hk; exact absurd hk (by simp)
  | cons g gr ih =>
    intro k hk hmin hmatch rest2
    match g with
    | (canonical, variants) =>
      match k with
      | 0 =>
        have hm0 : groupMatches lowered variants = true := hmatch
        show scanGroups lowered pm ((canonical, variants) :: (gr.take 0 ++ rest2)) =
          scanGroups lowered pm ((canonical, variants) :: gr)
        unfold scanGroups
        rw [if_pos hm0, if_pos hm0]
      | k' + 1 =>
        have h0 : groupMatches lowered variants = false :=
          hmin 0 (by simp) (Nat.succ_pos k')
        have hstep1 : scanGroups lowered pm
            ((canonical, variants) :: (gr.take (k' + 1) ++ rest2)) =
            scanGroups lowered pm (gr.take (k' + 1) ++ rest2) := by
          show (if groupMatches lowered variants = true then
              (rewriteGroup variants (displayOf canonical pm) lowered,
                some (displayOf canonical pm))
            else scanGroups lowered pm (gr.take (k' + 1) ++ rest2)) =
            scanGroups lowered pm (gr.take (k' + 1) ++ rest2)
          rw [if_neg (by rw [h0]; exact Bool.false_ne_true)]
        have hstep2 : scanGroups lowered pm ((canonical, variants) :: gr) =
            scanGroups lowered pm gr := by
          show (if groupMatches lowered variants = true then
              (rewriteGroup variants (displayOf canonical pm) lowered,
                some (displayOf canonical pm))
            else scanGroups lowered pm gr) = scanGroups lowered pm gr
          rw [if_neg (by rw [h0]; exact Bool.false_ne_true)]
        show scanGroups lowered pm ((canonical, variants) :: (gr.take (k' + 1) ++ rest2)) =
          scanGroups lowered pm ((canonical, variants) :: gr)
        rw [hstep1, hstep2]
        exact ih k' (by simpa using hk)
          (fun m hm h1 => hmin (m + 1) (by simpa using hm) (Nat.succ_lt_succ h1)) hmatch rest2

theorem detect_intent_at (nt : List Char) :
    ∀ (ik : List (List Char × List (List Char))) (i : Nat) (hi : i < ik.length),
      (∀ m (hm : m < ik.length), m < i → kwMatch nt (ik.get ⟨m, hm⟩) = false) →
      kwMatch nt (ik.get ⟨i, hi⟩) = true →
      detect_intent nt ik = some ((ik.get ⟨i, hi⟩).1) := by
  intro ik
  induction ik with
  | nil => intro i hi; exact absurd hi (by simp)
  | cons g gr ih =>
    intro i hi hmin hmatch
    match g with
    | (intent, keywords) =>
      match i with
      | 0 =>
        have hm0 : (keywords.any fun k => isSubstr (lowerL k) nt) = true := hmatch
        show detect_intent nt ((intent, keywords) :: gr) = some intent
        unfold detect_intent
        rw [if_pos hm0]
      | i' + 1 =>
        have h0 : (keywords.any fun k => isSubstr (lowerL k) nt) = false :=
          hmin 0 (by simp) (Nat.succ_pos i')
        have hstep : detect_intent nt ((intent, keywords) :: gr) = detect_intent nt gr := by
          show (if (keywords.any fun k => isSubstr (lowerL k) nt) = true then some intent
            else detect_intent nt gr) = detect_intent nt gr
          rw [if_neg (by rw [h0]; exact Bool.false_ne_true)]
        rw [hstep]
        exact ih i' (by simpa using hi)
          (fun m hm h1 => hmin (m + 1) (by simpa using hm) (Nat.succ_lt_succ h1)) hmatch

theorem detect_intent_eq_find (nt : List Char) :
    ∀ ik, detect_intent nt ik = (ik.find? (kwMatch nt)).map Prod.fst := by
  intro ik
  induction ik with
  | nil => rfl
  | cons g gr ih =>
    match g with
    | (intent, keywords) =>
      show detect_intent nt ((intent, keywords) :: gr) = _
      unfold detect_intent
      by_cases h : kwMatch nt (intent, keywords) = true
      · have h' : (keywords.any fun k => isSubstr (lowerL k) nt) = true := h
        rw [if_pos h', List.find?_cons_of_pos _ h]
        rfl
      · have h' : ¬ (keywords.any fun k => isSubstr (lowerL k) nt) = true := h
        rw [if_neg h', List.find?_cons_of_neg _ h]
        exact ih

theorem detect_intent_none_iff (nt : List Char) (ik : List (List Char × List (List Char))) :
    detect_intent nt ik = none ↔
      ∀ g ∈ ik, ∀ kw ∈ g.2, isSubstr (lowerL kw) nt = false := by
  rw [detect_intent_eq_find nt ik]
  constructor
  · intro h g hg kw hkw
    have hfind : ik.find? (kwMatch nt) = none := by
      match hv : ik.find? (kwMatch nt) with
      | none => rfl
      | some a => rw [hv] at h; exact absurd h (by simp)
    have := List.find?_eq_none.mp hfind g hg
    have hany : kwMatch nt g = false := by
      match hb : kwMatch nt g with
      | false => rfl
      | true => exact absurd hb this
    unfold kwMatch at hany
    match hb : isSubstr (lowerL kw) nt with
    | false => rfl
    | true =>
      have : g.2.any (fun k => isSubstr (lowerL k) nt) = true :=
        List.any_eq_true.mpr ⟨kw, hkw, hb⟩
      rw [this] at hany
      exact absurd hany (by simp)
  · intro h
    have hfind : ik.find? (kwMatch nt) = none := by
      rw [List.find?_eq_none]
      intro g hg hb
      unfold kwMatch at hb
      obtain ⟨kw, hkw, hsub⟩ := List.any_eq_true.mp hb
      rw [h g hg kw hkw] at hsub
      exact Bool.false_ne_true hsub
    rw [hfind]
    rfl

/-! ### The variant rewrite fold -/

theorem pyReplace_self {p : List Char} (t : List Char) (hp : p ≠ []) :
    pyReplace p t p = t := by
  match p, hp with
  | c :: rest, hp =>
    have hm : (c :: rest).isPrefixOf (c :: rest) = true :=
      List.isPrefixOf_iff_prefix.mpr ( List.prefix_refl _)
    rw [pyReplace_cons_match t hp hm, List.drop_length, pyReplace_nil, if_neg hp,
      List.append_nil]

theorem rewriteFold_spec (sL dnL : List Char) (hs : sL ≠ []) :
    ∀ vs : List (List Char),
      (∀ v ∈ vs, isSubstr (lowerL v) sL = true → lowerL v = sL) →
      (∀ v ∈ vs, isSubstr (lowerL v) dnL = false) →
      (vs.foldl (fun acc v => pyReplace (lowerL v) dnL acc) dnL = dnL) ∧
      ((∃ v ∈ vs, lowerL v = sL) →
        vs.foldl (fun acc v => pyReplace (lowerL v) dnL acc) sL = dnL) := by
  intro vs
  induction vs with
  | nil =>
    intro _ _
    exact ⟨rfl, fun h => absurd h (by simp)⟩
  | cons v vs' ih =>
    intro hv1 hv2
    have hv1' := fun w hw => hv1 w (List.mem_cons_of_mem v hw)
    have hv2' := fun w hw => hv2 w (List.mem_cons_of_mem v hw)
    have hvne : lowerL v ≠ [] := by
      intro h0
      have hsub : isSubstr (lowerL v) dnL = true := by
        rw [h0]
        exact prefix_substr List.nil_prefix
      rw [hv2 v (List.mem_cons_self _ _)] at hsub
      exact Bool.false_ne_true hsub
    obtain ⟨ihd, ihs⟩ := ih hv1' hv2'
    constructor
    · show vs'.foldl (fun acc v => pyReplace (lowerL v) dnL acc)
        (pyReplace (lowerL v) dnL dnL) = dnL
      rw [pyReplace_id dnL hvne dnL (hv2 v (List.mem_cons_self _ _))]
      exact ihd
    · rintro ⟨w, hw, hweq⟩
      show vs'.foldl (fun acc v => pyReplace (lowerL v) dnL acc)
        (pyReplace (lowerL v) dnL sL) = dnL
      by_cases hveq : lowerL v = sL
      · rw [hveq, pyReplace_self dnL hs]
        exact ihd
      · have hnosub : isSubstr (lowerL v) sL = false := by
          match hb : isSubstr (lowerL v) sL with
          | false => rfl
          | true => exact absurd (hv1 v (List.mem_cons_self _ _) hb) hveq
        rw [pyReplace_id dnL hvne sL hnosub]
        rcases List.mem_cons.mp hw with rfl | hw'
        · exact absurd hweq hveq
        · exact ihs ⟨w, hw', hweq⟩

/-! ### Deduplication of query terms -/

theorem pyStrip_not_all_ws (item : List Char) (h : pyStrip item ≠ []) :
    (pyStrip item).all wsB = false := by
  unfold pyStrip at h ⊢
  match hv : (item.dropWhile wsB).reverse.dropWhile wsB with
  | [] => rw [hv] at h; exact absurd rfl h
  | e :: b' =>
    have he : wsB e = false := dropWhile_head_not _ e b' hv
    match hb : ((e :: b').reverse).all wsB with
    | false => rfl
    | true =>
      have hmem := List.all_eq_true.mp hb e (by simp)
      rw [he] at hmem
      exact absurd hmem Bool.false_ne_true

theorem dedupGo_spec :
    ∀ (items : List (List Char)) (seen : List (List Char)),
      ((dedupGo seen items).map lowerL).Nodup ∧
      ∀ t ∈ dedupGo seen items, t ≠ [] ∧ t.all wsB = false ∧ lowerL t ∉ seen := by
  intro items
  induction items with
  | nil =>
    intro seen
    exact ⟨List.nodup_nil, fun t ht => absurd ht (List.not_mem_nil t)⟩
  | cons item rest ih =>
    intro seen
    by_cases hc : pyStrip item ≠ [] ∧ lowerL (pyStrip item) ∉ seen
    · have hstep : dedupGo seen (item :: rest) =
          pyStrip item :: dedupGo (lowerL (pyStrip item) :: seen) rest := by
        show (if pyStrip item ≠ [] ∧ lowerL (pyStrip item) ∉ seen then
            pyStrip item :: dedupGo (lowerL (pyStrip item) :: seen) rest
          else dedupGo seen rest) = _
        rw [if_pos hc]
      rw [hstep]
      obtain ⟨ihn, ihm⟩ := ih (lowerL (pyStrip item) :: seen)
      constructor
      · rw [List.map_cons, List.nodup_cons]
        refine ⟨?_, ihn⟩
        intro hmem
        obtain ⟨t, ht, hteq⟩ := List.mem_map.mp hmem
        have h2 := (ihm t ht).2.2
        rw [hteq] at h2
        exact h2 (List.mem_cons_self _ _)
      · intro t ht
        rcases List.mem_cons.mp ht with rfl | ht'
        · exact ⟨hc.1, pyStrip_not_all_ws item hc.1, hc.2⟩
        · have h2 := ihm t ht'
          exact ⟨h2.1, h2.2.1, fun hmem => h2.2.2 (List.mem_cons_of_mem _ hmem)⟩
    · have hstep : dedupGo seen (item :: rest) = dedupGo seen rest := by
        show (if pyStrip item ≠ [] ∧ lowerL (pyStrip item) ∉ seen then
            pyStrip item :: dedupGo (lowerL (pyStrip item) :: seen) rest
          else dedupGo seen rest) = _
        rw [if_neg hc]
      rw [hstep]
      exact ih seen

/-! ### Fallback selection through effective templates -/

/-- Effective template lookup: a missing entry and an entry configured as
the empty string behave identically in the falsy-or chains of
`_fallback_response`. -/
def effT (fallbacks : List (List Char × List Char)) (k : List Char) :
    Option (List Char) :=
  match getT fallbacks k with
  | some v => if v = [] then none else some v
  | none => none

theorem effT_of_none {fb : List (List Char × List Char)} {k : List Char}
    (hg : getT fb k = none) : effT fb k = none := by
  unfold effT
  rw [hg]

theorem effT_of_some {fb : List (List Char × List Char)} {k v : List Char}
    (hg : getT fb k = some v) : effT fb k = if v = [] then none else some v := by
  unfold effT
  rw [hg]

theorem pyOrS_getT (fb : List (List Char × List Char)) (k d : List Char) :
    pyOrS (getT fb k) d = (effT fb k).getD d := by
  match hg : getT fb k with
  | none =>
    rw [effT_of_none hg]
    rfl
  | some v =>
    rw [effT_of_some hg]
    show (if v = [] then d else v) = (if v = [] then none else some v).getD d
    by_cases hv : v = []
    · rw [if_pos hv, if_pos hv]
      rfl
    · rw [if_neg hv, if_neg hv]
      rfl

theorem effT_ne_nil {fb : List (List Char × List Char)} {k v : List Char}
    (h : effT fb k = some v) : v ≠ [] := by
  match hg : getT fb k with
  | none =>
    rw [effT_of_none hg] at h
    exact Option.noConfusion h
  | some w =>
    rw [effT_of_some hg] at h
    by_cases hw : w = []
    · rw [if_pos hw] at h
      exact Option.noConfusion h
    · rw [if_neg hw] at h
      have hwv : w = v := Option.some.inj h
      rw [← hwv]
      exact hw

theorem fallback_response_eq_eff (nt : List Char) (p it : Option (List Char))
    (fb : List (List Char × List Char)) :
    fallback_response nt p it fb =
      if (isSubstr (str "account") nt || it == some (str "account_benefits")
          || it == some (str "account_opening")) && (p.getD []).isEmpty then
        (effT fb (str "clarify_account")).getD ((effT fb (str "handoff")).getD defaultMsg)
      else if it == some (str "account_opening") then
        (effT fb (str "general_opening")).getD ((effT fb (str "handoff")).getD defaultMsg)
      else (effT fb (str "handoff")).getD defaultMsg := by
  unfold fallback_response
  simp only [pyOrS_getT]

/-! ## Claim C1 -/

/-- C1 counterexample: with empty normalized text, no product and no
intent, `build_retrieval_query` does not return the empty string (it
returns the fixed generic expansion). -/
theorem build_query_empty_cex : ¬ (build_retrieval_query [] none none [] = []) := by decide

/-- C1 (amended): buildQuery always returns a string; for empty
normalizedText, no productName and no intent it returns exactly the fixed
generic expansion "features eligibility documents process", which is not
empty, whatever the intent-keyword configuration. -/
theorem build_query_empty_inputs
    (intent_keywords : List (List Char × List (List Char))) :
    build_retrieval_query [] none none intent_keywords =
      str "features eligibility documents process" ∧
    build_retrieval_query [] none none intent_keywords ≠ [] := by
  have h1 : build_retrieval_query [] none none intent_keywords =
      str "features eligibility documents process" := rfl
  exact ⟨h1, by rw [h1]; decide⟩

/-! ## Claim C2 -/

/-- A file system holding exactly one catalog file, which exists but fails
to parse. -/
def fsMalformed : FileSys :=
  fun path => if path = str "bank.json" then some none else none

/-- C2 counterexample: a present `.json` catalog file that fails to parse
makes `load_product_map` raise (propagate an error), not return an empty
map. -/
theorem load_product_map_malformed_cex :
    load_product_map (str "bank.json") fsMalformed = Except.error () ∧
    ∀ m, load_product_map (str "bank.json") fsMalformed ≠ Except.ok m := by
  have h1 : load_product_map (str "bank.json") fsMalformed = Except.error () := rfl
  exact ⟨h1, fun m hm => by rw [h1] at hm; exact Except.noConfusion hm⟩

/-- C2 (amended): a non-`.json` path or an absent file yields the empty
map without failure; a present `.json` file that fails to parse raises,
and a file that parses yields the catalog map. -/
theorem load_product_map_spec (rag_path : List Char) (fs : FileSys) :
    ((str ".json").isSuffixOf (lowerL rag_path) = false →
      load_product_map rag_path fs = Except.ok []) ∧
    (fs rag_path = none → load_product_map rag_path fs = Except.ok []) ∧
    ((str ".json").isSuffixOf (lowerL rag_path) = true → fs rag_path = some none →
      load_product_map rag_path fs = Except.error ()) ∧
    (∀ data, (str ".json").isSuffixOf (lowerL rag_path) = true →
      fs rag_path = some (some data) →
      load_product_map rag_path fs = Except.ok (buildCatalogMap data)) := by
  refine ⟨?_, ?_, ?_, ?_⟩
  · intro h
    unfold load_product_map
    rw [h]
    rfl
  · intro h
    by_cases hs : (str ".json").isSuffixOf (lowerL rag_path) = true
    · unfold load_product_map
      rw [h, hs]
      rfl
    · have hs' : (str ".json").isSuffixOf (lowerL rag_path) = false := by
        match hb : (str ".json").isSuffixOf (lowerL rag_path) with
        | false => rfl
        | true => exact absurd hb hs
      unfold load_product_map
      rw [hs']
      rfl
  · intro hs h
    unfold load_product_map
    rw [h, hs]
    rfl
  · intro data hs h
    unfold load_product_map
    rw [h, hs]
    rfl

/-- C2 witness data: a file system with a parsed catalog. -/
def fsParsed : FileSys :=
  fun path =>
    if path = str "bank.json" then
      some (some ⟨[⟨some (str "asaan_account"), some (str "Asaan Account")⟩,
                   ⟨none, some (str "ignored")⟩]⟩)
    else none

/-- C2 witness: the amended claim applied to concrete file systems. -/
theorem load_product_map_spec_witness :
    load_product_map (str "bank.txt") fsMalformed = Except.ok [] ∧
    load_product_map (str "other.json") fsMalformed = Except.ok [] ∧
    load_product_map (str "bank.json") fsMalformed = Except.error () ∧
    load_product_map (str "bank.json") fsParsed =
      Except.ok [(str "asaan_account", str "Asaan Account")] := by
  refine ⟨(load_product_map_spec (str "bank.txt") fsMalformed).1 (by decide),
    (load_product_map_spec (str "other.json") fsMalformed).2.1 (by decide),
    (load_product_map_spec (str "bank.json") fsMalformed).2.2.1 (by decide) (by decide),
    ?_⟩
  have h := (load_product_map_spec (str "bank.json") fsParsed).2.2.2
    ⟨[⟨some (str "asaan_account"), some (str "Asaan Account")⟩,
      ⟨none, some (str "ignored")⟩]⟩ (by decide) rfl
  rw [h]
  rfl

/-! ## Claim C3 -/

/-- Two synonym groups where a synonym of the second contains a synonym of
the first as a substring. -/
def cexGroups : List (List Char × List (List Char)) :=
  [(str "basic_account", [str "account"]), (str "savings_account", [str "savings account"])]

/-- C3 counterexample: feeding the second group's synonym
"savings account" as the entire input resolves the FIRST group (whose
synonym "account" is a substring), not the synonym's own group, and the
text is not rewritten to the second group's display name. -/
theorem resolve_synonym_cex :
    normalize_transcript (str "savings account") cexGroups [] =
      (str "savings basic account", some (str "Basic Account")) ∧
    displayOf (str "savings_account") [] = str "Savings Account" ∧
    (normalize_transcript (str "savings account") cexGroups []).2 ≠
      some (str "Savings Account") := by
  have h1 : normalize_transcript (str "savings account") cexGroups [] =
      (str "savings basic account", some (str "Basic Account")) := by decide
  refine ⟨h1, by decide, ?_⟩
  rw [h1]
  decide

/-- C3 (amended): for a configured synonym group and synonym `s`, if the
input text equals `s` up to casing and whitespace collapse, the STT fixes
leave `s` unchanged, no synonym of an earlier group occurs in `s`
(case-insensitively), every synonym of the group occurring in `s` equals
`s` case-insensitively, and no synonym of the group occurs in the display
name, then the pipeline resolves that group's canonical product and
rewrites the text to the lowercased display name. -/
theorem resolve_synonym_amended (x s : List Char)
    (groups : List (List Char × List (List Char))) (pm : List (List Char × List Char))
    (i : Nat) (hi : i < groups.length)
    (hs : s ≠ [])
    (hmem : s ∈ (groups.get ⟨i, hi⟩).2)
    (hx : lowerL (collapse x) = lowerL s)
    (hfix : apply_stt_fixes (lowerL s) = lowerL s)
    (hearly : ∀ m (hm : m < groups.length), m < i →
      groupMatches (lowerL s) (groups.get ⟨m, hm⟩).2 = false)
    (hv1 : ∀ v ∈ (groups.get ⟨i, hi⟩).2,
      isSubstr (lowerL v) (lowerL s) = true → lowerL v = lowerL s)
    (hv2 : ∀ v ∈ (groups.get ⟨i, hi⟩).2,
      isSubstr (lowerL v) (lowerL (displayOf (groups.get ⟨i, hi⟩).1 pm)) = false) :
    normalize_transcript x groups pm =
      (lowerL (displayOf (groups.get ⟨i, hi⟩).1 pm),
        some (displayOf (groups.get ⟨i, hi⟩).1 pm)) := by
  have hnorm : normalizeText x = lowerL s := by
    show apply_stt_fixes (lowerL (collapse x)) = lowerL s
    rw [hx, hfix]
  have hsL : lowerL s ≠ [] := fun h0 => hs (List.map_eq_nil_iff.mp h0)
  have hmatch : groupMatches (lowerL s) (groups.get ⟨i, hi⟩).2 = true := by
    unfold groupMatches
    exact List.any_eq_true.mpr ⟨s, hmem, prefix_substr ( List.prefix_refl _)⟩
  unfold normalize_transcript
  rw [hnorm, scanGroups_at (lowerL s) pm groups i hi hearly hmatch]
  have hfold := rewriteFold_spec (lowerL s)
    (lowerL (displayOf (groups.get ⟨i, hi⟩).1 pm)) hsL (groups.get ⟨i, hi⟩).2 hv1 hv2
  have hrw : rewriteGroup (groups.get ⟨i, hi⟩).2 (displayOf (groups.get ⟨i, hi⟩).1 pm)
      (lowerL s) = lowerL (displayOf (groups.get ⟨i, hi⟩).1 pm) :=
    hfold.2 ⟨s, hmem, rfl⟩
  rw [hrw]

/-- C3 witness: the amended claim on a one-group configuration whose
display name comes from the catalog map. -/
theorem resolve_synonym_amended_witness :
    normalize_transcript (str "Gold  Account") [(str "acc1", [str "gold account"])]
      [(str "acc1", str "Premier")] = (str "premier", some (str "Premier")) := by
  have h := resolve_synonym_amended (str "Gold  Account") (str "gold account")
    [(str "acc1", [str "gold account"])] [(str "acc1", str "Premier")] 0 (by decide)
    (by decide) (by decide) (by decide) (by decide)
    (fun m hm h0 => absurd h0 (Nat.not_lt_zero m))
    (by decide) (by decide)
  rw [h]
  decide

/-! ## Claim C5 -/

/-- C5: when groups at positions `i < j` of the configuration both have a
matching synonym in the normalized text, resolution selects the first
matching group overall — an index `k ≤ i < j`, so never the later group —
independently of where the synonyms occur in the text, and scanning stops
there: any groups after the match can be replaced without changing the
result. -/
theorem scan_group_priority (x : List Char)
    (groups : List (List Char × List (List Char))) (pm : List (List Char × List Char))
    (i j : Nat) (hi : i < groups.length) (hj : j < groups.length) (hij : i < j)
    (hmi : groupMatches (normalizeText x) (groups.get ⟨i, hi⟩).2 = true)
    (hmj : groupMatches (normalizeText x) (groups.get ⟨j, hj⟩).2 = true) :
    ∃ k, ∃ hk : k < groups.length, k ≤ i ∧ k < j ∧
      groupMatches (normalizeText x) (groups.get ⟨k, hk⟩).2 = true ∧
      (∀ m (hm : m < groups.length), m < k →
        groupMatches (normalizeText x) (groups.get ⟨m, hm⟩).2 = false) ∧
      normalize_transcript x groups pm =
        (rewriteGroup (groups.get ⟨k, hk⟩).2 (displayOf (groups.get ⟨k, hk⟩).1 pm)
          (normalizeText x),
         some (displayOf (groups.get ⟨k, hk⟩).1 pm)) ∧
      (∀ rest2, scanGroups (normalizeText x) pm (groups.take (k + 1) ++ rest2) =
        scanGroups (normalizeText x) pm groups) := by
  obtain ⟨k, hk, hle, hpk, hmin⟩ :=
    exists_first_match (fun g => groupMatches (normalizeText x) g.2) groups i hi hmi
  refine ⟨k, hk, hle, Nat.lt_of_le_of_lt hle hij, hpk, hmin, ?_, ?_⟩
  · unfold normalize_transcript
    exact scanGroups_at (normalizeText x) pm groups k hk hmin hpk
  · intro rest2
    exact scanGroups_take_append (normalizeText x) pm groups k hk hmin hpk rest2

/-- C5 witness: both groups of `cexGroups` match "savings account"; the
theorem applied at indices 0 and 1. -/
theorem scan_group_priority_witness :
    ∃ k, ∃ hk : k < cexGroups.length, k ≤ 0 ∧ k < 1 ∧
      groupMatches (normalizeText (str "savings account")) (cexGroups.get ⟨k, hk⟩).2 = true ∧
      (∀ m (hm : m < cexGroups.length), m < k →
        groupMatches (normalizeText (str "savings account")) (cexGroups.get ⟨m, hm⟩).2
          = false) ∧
      normalize_transcript (str "savings account") cexGroups [] =
        (rewriteGroup (cexGroups.get ⟨k, hk⟩).2 (displayOf (cexGroups.get ⟨k, hk⟩).1 [])
          (normalizeText (str "savings account")),
         some (displayOf (cexGroups.get ⟨k, hk⟩).1 [])) ∧
      (∀ rest2, scanGroups (normalizeText (str "savings account")) []
          (cexGroups.take (k + 1) ++ rest2) =
        scanGroups (normalizeText (str "savings account")) [] cexGroups) :=
  scan_group_priority (str "savings account") cexGroups [] 0 1 (by decide) (by decide)
    (by decide) (by decide) (by decide)

/-! ## Claim C6 -/

/-- C6: `detect_intent` returns the first intent in configuration
insertion order having a keyword whose lowercased form is a substring of
the text (it equals the first entry found by `List.find?`), it is absent
exactly when no keyword of any intent matches, and whenever the intent at
position `i` matches, the result is the intent at the first matching
position `k ≤ i`, regardless of where the keywords occur in the text. -/
theorem detect_intent_spec (nt : List Char) (ik : List (List Char × List (List Char))) :
    detect_intent nt ik = (ik.find? (kwMatch nt)).map Prod.fst ∧
    (detect_intent nt ik = none ↔
      ∀ g ∈ ik, ∀ kw ∈ g.2, isSubstr (lowerL kw) nt = false) ∧
    ∀ i (hi : i < ik.length), kwMatch nt (ik.get ⟨i, hi⟩) = true →
      ∃ k, ∃ hk : k < ik.length, k ≤ i ∧ kwMatch nt (ik.get ⟨k, hk⟩) = true ∧
        (∀ m (hm : m < ik.length), m < k → kwMatch nt (ik.get ⟨m, hm⟩) = false) ∧
        detect_intent nt ik = some ((ik.get ⟨k, hk⟩).1) := by
  refine ⟨detect_intent_eq_find nt ik, detect_intent_none_iff nt ik, ?_⟩
  intro i hi hm
  obtain ⟨k, hk, hle, hpk, hmin⟩ := exists_first_match (kwMatch nt) ik i hi hm
  exact ⟨k, hk, hle, hpk, hmin, detect_intent_at nt ik k hk hmin hpk⟩

/-- An intent configuration where the first intent's keyword occurs later
in the text than the second intent's keyword. -/
def cexIntents : List (List Char × List (List Char)) :=
  [(str "loan_info", [str "loan"]), (str "account_benefits", [str "account"])]

/-- C6 witness: "account" occurs first positionally, but the earlier
declared intent with keyword "loan" wins. -/
theorem detect_intent_spec_witness :
    detect_intent (str "account chahiye loan ke liye") cexIntents =
      some (str "loan_info") := by
  obtain ⟨k, hk, hle, _, _, heq⟩ :=
    (detect_intent_spec (str "account chahiye loan ke liye") cexIntents).2.2
      0 (by decide) (by decide)
  have hk0 : k = 0 := Nat.le_zero.mp hle
  subst hk0
  rw [heq]
  have hname : (cexIntents.get ⟨0, hk⟩).1 = str "loan_info" := rfl
  rw [hname]

/-! ## Claim C7 -/

/-- C7: with intent "account_opening" and a resolved (non-empty) product,
the account-clarification rule is skipped even though the utterance
concerns an account by the intent-based definition, and the selector
returns the general_opening template when set, else handoff, else the
literal default. -/
theorem fallback_account_opening_with_product (nt pp : List Char)
    (fb : List (List Char × List Char)) (hp : pp ≠ []) :
    fallback_response nt (some pp) (some (str "account_opening")) fb =
      pyOrS (getT fb (str "general_opening"))
        (pyOrS (getT fb (str "handoff")) defaultMsg) ∧
    (∀ g, effT fb (str "general_opening") = some g →
      fallback_response nt (some pp) (some (str "account_opening")) fb = g) ∧
    (effT fb (str "general_opening") = none →
      ∀ h2, effT fb (str "handoff") = some h2 →
        fallback_response nt (some pp) (some (str "account_opening")) fb = h2) ∧
    (effT fb (str "general_opening") = none → effT fb (str "handoff") = none →
      fallback_response nt (some pp) (some (str "account_opening")) fb = defaultMsg) := by
  have hmain : fallback_response nt (some pp) (some (str "account_opening")) fb =
      (effT fb (str "general_opening")).getD
        ((effT fb (str "handoff")).getD defaultMsg) := by
    rw [fallback_response_eq_eff]
    simp only [Option.getD_some, List.isEmpty_eq_false.mpr hp, Bool.and_false]
    rw [if_neg (Bool.false_ne_true), if_pos (beq_self_eq_true _)]
  refine ⟨?_, ?_, ?_, ?_⟩
  · rw [hmain, pyOrS_getT, pyOrS_getT]
  · intro g hg
    rw [hmain, hg]
    rfl
  · intro hg h2 hh
    rw [hmain, hg, hh]
    rfl
  · intro hg hh
    rw [hmain, hg, hh]
    rfl

/-- C7 witness: the theorem applied with a configured general_opening
template. -/
theorem fallback_account_opening_with_product_witness :
    fallback_response (str "mujhe account kholna hai") (some (str "Premier"))
      (some (str "account_opening"))
      [(str "general_opening", str "Aap kaunsa account kholna chahte hain?")] =
      str "Aap kaunsa account kholna chahte hain?" :=
  (fallback_account_opening_with_product (str "mujhe account kholna hai")
    (str "Premier") [(str "general_opening", str "Aap kaunsa account kholna chahte hain?")]
    (by decide)).2.1 (str "Aap kaunsa account kholna chahte hain?") (by decide)

/-! ## Claim C8 -/

/-- C8: the query string is the space-join of the deduplicated term list,
whose lowercased terms are pairwise distinct (first occurrence kept) and
which contains no empty and no whitespace-only term. -/
theorem build_query_terms_spec (normalized_text : List Char)
    (product_name intent : Option (List Char))
    (intent_keywords : List (List Char × List (List Char))) :
    build_retrieval_query normalized_text product_name intent intent_keywords =
      joinSpace (dedupGo []
        (queryParts normalized_text product_name intent intent_keywords)) ∧
    ((dedupGo [] (queryParts normalized_text product_name intent intent_keywords)).map
      lowerL).Nodup ∧
    ∀ t ∈ dedupGo [] (queryParts normalized_text product_name intent intent_keywords),
      t ≠ [] ∧ t.all wsB = false := by
  refine ⟨rfl, (dedupGo_spec _ []).1, ?_⟩
  intro t ht
  have h := (dedupGo_spec
    (queryParts normalized_text product_name intent intent_keywords) []).2 t ht
  exact ⟨h.1, h.2.1⟩

/-- C8 witness: the theorem applied to a concrete query whose inputs
overlap case-insensitively. -/
theorem build_query_terms_spec_witness :
    str "open account" ≠ [] ∧ (str "open account").all wsB = false :=
  (build_query_terms_spec (str "open account") (some (str "Premier"))
    (some (str "account_opening"))
    [(str "account_opening", [str "account", str "Features"])]).2.2
    (str "open account") (by decide)

/-! ## Claim C9 -/

theorem eff_getD_ne_nil (fb : List (List Char × List Char)) (k d : List Char)
    (hd : d ≠ []) : (effT fb k).getD d ≠ [] := by
  match hv : effT fb k with
  | none => exact hd
  | some v => exact effT_ne_nil hv

/-- C9: the fallback selector always returns a non-empty string; it
depends on the templates only through their effective values (so an entry
configured as the empty string behaves exactly like an absent entry and
the chain falls through), and when every effective template is absent the
result is the literal default. -/
theorem fallback_total_spec (nt : List Char) (p it : Option (List Char)) :
    (∀ fb, fallback_response nt p it fb ≠ []) ∧
    (∀ fb1 fb2, (∀ k, effT fb1 k = effT fb2 k) →
      fallback_response nt p it fb1 = fallback_response nt p it fb2) ∧
    (∀ fb, (∀ k, effT fb k = none) → fallback_response nt p it fb = defaultMsg) := by
  refine ⟨?_, ?_, ?_⟩
  · intro fb
    rw [fallback_response_eq_eff]
    by_cases h1 : ((isSubstr (str "account") nt || it == some (str "account_benefits")
        || it == some (str "account_opening")) && (p.getD []).isEmpty) = true
    · rw [if_pos h1]
      exact eff_getD_ne_nil fb _ _ (eff_getD_ne_nil fb _ _ (by decide))
    · rw [if_neg h1]
      by_cases h2 : (it == some (str "account_opening")) = true
      · rw [if_pos h2]
        exact eff_getD_ne_nil fb _ _ (eff_getD_ne_nil fb _ _ (by decide))
      · rw [if_neg h2]
        exact eff_getD_ne_nil fb _ _ (by decide)
  · intro fb1 fb2 hagree
    rw [fallback_response_eq_eff, fallback_response_eq_eff,
      hagree (str "clarify_account"), hagree (str "general_opening"),
      hagree (str "handoff")]
  · intro fb hnone
    rw [fallback_response_eq_eff, hnone (str "clarify_account"),
      hnone (str "general_opening"), hnone (str "handoff")]
    by_cases h1 : ((isSubstr (str "account") nt || it == some (str "account_benefits")
        || it == some (str "account_opening")) && (p.getD []).isEmpty) = true
    · rw [if_pos h1]
      rfl
    · rw [if_neg h1]
      by_cases h2 : (it == some (str "account_opening")) = true
      · rw [if_pos h2]
        rfl
      · rw [if_neg h2]
        rfl

/-- C9 witness: a template configured as the empty string behaves like an
absent one, and with no effective templates the literal default is
returned. -/
theorem fallback_total_spec_witness :
    fallback_response (str "hello") none none [(str "handoff", [])] =
      fallback_response (str "hello") none none [] ∧
    fallback_response (str "hello") none none [] = defaultMsg ∧
    fallback_response (str "hello") none none [(str "handoff", [])] ≠ [] := by
  have hagree : ∀ k, effT [(str "handoff", ([] : List Char))] k =
      effT ([] : List (List Char × List Char)) k := by
    intro k
    have h2 : effT ([] : List (List Char × List Char)) k = none := effT_of_none rfl
    rw [h2]
    by_cases hk : str "handoff" = k
    · subst hk
      rfl
    · have hnone : List.find? (fun kv => kv.1 == k)
          [(str "handoff", ([] : List Char))] = none := by
        rw [List.find?_eq_none]
        intro x hx
        have hx' : x = (str "handoff", ([] : List Char)) := by simpa using hx
        subst hx'
        intro hpx
        exact hk (by simpa using hpx)
      have hg : getT [(str "handoff", ([] : List Char))] k = none := by
        unfold getT
        rw [hnone]
        rfl
      exact effT_of_none hg
  refine ⟨(fallback_total_spec (str "hello") none none).2.1 _ _ hagree,
    (fallback_total_spec (str "hello") none none).2.2 [] (fun k => effT_of_none rfl),
    (fallback_total_spec (str "hello") none none).1 _⟩

/-! ## Claim C10 -/

/-- C10: if some intent's keyword list contains the empty string, then for
every input text `detect_intent` returns a present intent — at latest the
first such intent in configuration order — because the empty string is a
substring of every string; the "no intent" result is unreachable. -/
theorem detect_intent_empty_keyword (nt : List Char)
    (ik : List (List Char × List (List Char))) (i : Nat) (hi : i < ik.length)
    (hkw : [] ∈ (ik.get ⟨i, hi⟩).2) :
    (∃ k, ∃ hk : k < ik.length, k ≤ i ∧
      detect_intent nt ik = some ((ik.get ⟨k, hk⟩).1)) ∧
    detect_intent nt ik ≠ none := by
  have hm : kwMatch nt (ik.get ⟨i, hi⟩) = true := by
    unfold kwMatch
    refine List.any_eq_true.mpr ⟨[], hkw, ?_⟩
    exact prefix_substr List.nil_prefix
  obtain ⟨k, hk, hle, hpk, hmin⟩ := exists_first_match (kwMatch nt) ik i hi hm
  have heq := detect_intent_at nt ik k hk hmin hpk
  exact ⟨⟨k, hk, hle, heq⟩, by rw [heq]; exact fun h => Option.noConfusion h⟩

/-- C10 witness: an empty keyword makes every text, here one sharing no
letter with any keyword, detect an intent. -/
theorem detect_intent_empty_keyword_witness :
    detect_intent (str "zzz") [(str "catch_all", [str ""])] ≠ none :=
  (detect_intent_empty_keyword (str "zzz") [(str "catch_all", [str ""])] 0
    (by decide) (by decide)).2

/-- Sanity check against the specification's worked example of whitespace
collapse. -/
theorem sanity_collapse :
    collapse (str "  open   a count  please ") = str "open a count please" := by decide

/-- Sanity check: the specification's worked STT-fix example. -/
theorem sanity_stt_fix :
    normalizeText (str "Open a count  please") = str "open account please" := by decide

/-- Sanity check: the a/c fix applies inside a sentence. -/
theorem sanity_stt_fix_slash :
    normalizeText (str "mera A/C kholna hai") = str "mera account kholna hai" := by decide

end RagNew
